import Mathlib

/-!
Verification of the KUKSA hardware fixture runner (fixture_runner.cpp).

The development shallowly embeds the runner's data model and operations:
configuration loading, the namespace rewriter that adds the ".target"
suffix for served actuators (both the depends_on rewriting and the
textual find/replace over transform expressions), the startup sequence
(resolver/client creation, all-or-nothing signal resolution, actuator
registration, DAG initialization, client start and readiness), the
10 Hz tick loop's publish pass and the actuation callback's publish pass.

External collaborators (the KUKSA client, the vssdag evaluator, YAML
parsing) are modelled as oracles carried in an environment record; the
embedded functions mirror the control flow of the C++ source.
-/

/-- vss::types::ValueType.  Only UNSPECIFIED is distinguished by the
runner's own code; every other datatype is carried opaquely by name. -/
inductive VT where
  | unspecified : VT
  | named : String → VT
deriving DecidableEq

/-- vss::types::Value, opaque to the runner (it is only moved around). -/
abbrev VssValue := Nat

/-- vssdag::SignalSource, as constructed in CreateDAGMappings:
SignalSource{"actuator", target_signal}. -/
structure SignalSource where
  kind : String
  name : String
deriving DecidableEq

/-- vssdag::SignalMapping, restricted to the fields the runner touches.
The transform variant is modelled as an optional expression text: the
runner only ever distinguishes CodeTransform from everything else.
C++ default construction corresponds to the default field values. -/
structure SignalMapping where
  datatype : VT := VT.unspecified
  depends_on : List String := []
  /-- interval_ms as set from the "delay" key; the seconds-to-ms
  conversion happens outside the model (floating point). -/
  interval_ms : Option Int := none
  transform : Option (List Char) := none
  source : Option SignalSource := none
deriving DecidableEq

/-- FixtureConfig from fixture_runner.cpp.  The unordered_map of
mappings is modelled as an association list with distinct keys. -/
structure FixtureConfig where
  name : String := ""
  serves : List String := []
  mappings : List (String × SignalMapping) := []
deriving DecidableEq

/-- vssdag::SignalUpdate as built in HandleActuation (timestamp and the
always-VALID quality are dropped: no claim touches them). -/
structure SignalUpdate where
  path : String
  value : VssValue
deriving DecidableEq

/-- vssdag::VSSSignal: an output of DAG evaluation; valid models
qualified_value.is_valid(). -/
structure VSSSignal where
  path : String
  valid : Bool
  value : VssValue
deriving DecidableEq

/-! ### Textual rewriting of transform expressions (CreateDAGMappings)

The C++ loop

    size_t pos = 0;
    while ((pos = code.find(search, pos)) != std::string::npos) {
        code.replace(pos, search.length(), replace);
        pos += replace.length();
    }

replaces leftmost occurrences and resumes scanning right after the
inserted replacement.  replaceAll embeds it on character lists; the
fuel argument is the scan position budget (one unit per character) and
is fixed to the code length by the wrapper. -/

def replaceAllGo (s r : List Char) : Nat → List Char → List Char
  | _, [] => []
  | 0, code => code
  | Nat.succ fuel, c :: cs =>
      if s.isPrefixOf (c :: cs) then
        r ++ replaceAllGo s r fuel ((c :: cs).drop s.length)
      else
        c :: replaceAllGo s r fuel cs

/-- The C++ find/replace-all loop with skip-past-replacement semantics. -/
def replaceAll (s r code : List Char) : List Char :=
  replaceAllGo s r code.length code

/-- Double quote character. -/
def dQuote : Char := Char.ofNat 34

/-- Single quote character. -/
def sQuote : Char := Char.ofNat 39

/-- The search pattern without its closing bracket:
"deps[" + quote + actuator + quote. -/
def qhead (q : Char) (p : List Char) : List Char :=
  "deps[".data ++ [q] ++ p ++ [q]

/-- The replacement without its closing bracket:
"deps[" + quote + actuator + ".target" + quote. -/
def qheadT (q : Char) (p : List Char) : List Char :=
  "deps[".data ++ [q] ++ p ++ ".target".data ++ [q]

/-- search string: deps[<q><actuator><q>]. -/
def searchQ (q : Char) (p : List Char) : List Char := qhead q p ++ [']']

/-- replacement string: deps[<q><actuator>.target<q>]. -/
def replQ (q : Char) (p : List Char) : List Char := qheadT q p ++ [']']

/-- Per-actuator body of the transform-code loop: first the
double-quote convention, then the single-quote convention. -/
def rewriteOnce (p code : List Char) : List Char :=
  replaceAll (searchQ sQuote p) (replQ sQuote p) (replaceAll (searchQ dQuote p) (replQ dQuote p) code)

/-- The full transform-code rewriting: the C++ loop over config_.serves. -/
def codeRewrite (serves : List (List Char)) (code : List Char) : List Char :=
  serves.foldl (fun c a => rewriteOnce a c) code

/-- A well-formed signal path: contains no quote and no bracket
characters (signal paths are dot-segmented identifiers). -/
def goodPath (p : List Char) : Prop :=
  ∀ c ∈ p, c ≠ dQuote ∧ c ≠ sQuote ∧ c ≠ '[' ∧ c ≠ ']'

instance (p : List Char) : Decidable (goodPath p) := by
  unfold goodPath; infer_instance

/-! ### Mapping rewriting (CreateDAGMappings) -/

/-- The depends_on rewriting loop: a served dependency gets the
".target" suffix, every other dependency is kept as is. -/
def rewriteDeps (serves : List String) : List String → List String
  | [] => []
  | d :: rest =>
      (if d ∈ serves then d ++ ".target" else d) :: rewriteDeps serves rest

/-- Per-mapping body of CreateDAGMappings: rewrite depends_on, and
rewrite the expression text when the transform is a CodeTransform. -/
def transformMapping (serves : List String) (m : SignalMapping) : SignalMapping :=
  { m with
    depends_on := rewriteDeps serves m.depends_on
    transform :=
      match m.transform with
      | some code => some (codeRewrite (serves.map String.data) code)
      | none => none }

/-- The synthesized external-input node for a served actuator's
".target" signal: UNSPECIFIED datatype, an actuator source, no
depends_on, no transform. -/
def targetMapping (t : String) : SignalMapping :=
  { datatype := VT.unspecified
    depends_on := []
    interval_ms := none
    transform := none
    source := some ⟨"actuator", t⟩ }

/-- Second loop of CreateDAGMappings: add a ".target" input node per
served actuator unless the table already has that key. -/
def addTargets : List String → List (String × SignalMapping) → List (String × SignalMapping)
  | [], tbl => tbl
  | a :: rest, tbl =>
      addTargets rest
        (if (tbl.lookup (a ++ ".target")).isSome then tbl
         else tbl ++ [(a ++ ".target", targetMapping (a ++ ".target"))])

/-- FixtureRunner::CreateDAGMappings. -/
def createDAGMappings (cfg : FixtureConfig) : List (String × SignalMapping) :=
  addTargets cfg.serves
    (cfg.mappings.map (fun nm => (nm.1, transformMapping cfg.serves nm.2)))

/-! ### Configuration loading (LoadConfig) -/

/-- One element of the YAML mappings sequence, already shaped (the YAML
grammar itself is an external collaborator). -/
structure MappingNode where
  signal : Option String := none
  datatype : Option String := none
  depends_on : Option (List String) := none
  /-- the "delay" key, already converted to milliseconds. -/
  delay_ms : Option Int := none
  transformCode : Option (List Char) := none

/-- The fixture section of the YAML document. -/
structure YamlFixture where
  name : Option String := none
  serves : Option (List String) := none
  mappings : Option (List MappingNode) := none

/-- The YAML root. -/
structure YamlRoot where
  fixture : Option YamlFixture := none

/-- The possible outcomes of opening the configuration file:
stat failure, a directory, a YAML parse exception, or a document. -/
inductive ConfigFile where
  | missing : ConfigFile
  | dir : ConfigFile
  | parseError : ConfigFile
  | ok : YamlRoot → ConfigFile

/-- Insert-or-overwrite on the mappings association list, the
behaviour of config_.mappings[signal_name] = mapping. -/
def assocSet (tbl : List (String × SignalMapping)) (k : String) (v : SignalMapping) :
    List (String × SignalMapping) :=
  if (tbl.lookup k).isSome then
    tbl.map (fun kv => if kv.1 = k then (k, v) else kv)
  else
    tbl ++ [(k, v)]

/-- The mappings parsing loop of LoadConfig.  vtParse embeds the
external vss::types::value_type_from_string. -/
def loadMappings (vtParse : String → Option VT) :
    List MappingNode → List (String × SignalMapping) → List (String × SignalMapping)
  | [], acc => acc
  | n :: rest, acc =>
      match n.signal with
      | none => loadMappings vtParse rest acc
      | some name =>
          let dt : VT :=
            match n.datatype with
            | some s =>
                match vtParse s with
                | some t => t
                | none => VT.unspecified
            | none => VT.unspecified
          let m : SignalMapping :=
            { datatype := dt
              depends_on := (n.depends_on).getD []
              interval_ms := n.delay_ms
              transform := n.transformCode
              source := none }
          loadMappings vtParse rest (assocSet acc name m)

/-- FixtureRunner::LoadConfig: returns the config_ member after the
call.  Every failure path only logs and returns, leaving whatever was
set so far; no failure is reported to the caller. -/
def loadConfig (vtParse : String → Option VT) (file : ConfigFile) : FixtureConfig :=
  match file with
  | ConfigFile.missing => {}
  | ConfigFile.dir => {}
  | ConfigFile.parseError => {}
  | ConfigFile.ok root =>
      match root.fixture with
      | none => {}
      | some fx =>
          let c1 : FixtureConfig := { name := fx.name.getD "Unnamed Fixture" }
          match fx.serves with
          | none => c1
          | some sv =>
              let c2 : FixtureConfig := { c1 with serves := sv }
              match fx.mappings with
              | none => c2
              | some ms => { c2 with mappings := loadMappings vtParse ms [] }

/-! ### Startup (Start) and the main entry point -/

/-- Oracles for the external collaborators used during startup and at
runtime: resolver/client creation, per-path resolution, DAG
initialization, client start and readiness, DAG evaluation, publishing. -/
structure RunnerEnv where
  resolverOk : Bool
  clientOk : Bool
  resolve : String → Option Nat
  dagInit : List (String × SignalMapping) → Bool
  clientStartOk : Bool
  readyOk : Bool
  dagProcess : List SignalUpdate → List VSSSignal
  publishOk : String → VssValue → Bool

/-- The observable state after Start: the running_ flag, the
signal_handles_ map, the trace of resolve calls in order, and the list
of actuators registered via serve_actuator in order. -/
structure StartState where
  running : Bool
  handles : List (String × Nat)
  resolveTrace : List String
  registered : List String
deriving DecidableEq

/-- The all_signals set of Start: serves plus every mapping key
(outputs only), deduplicated. -/
def allSignals (cfg : FixtureConfig) : List String :=
  (cfg.serves ++ cfg.mappings.map Prod.fst).dedup

/-- The pre-resolution loop of Start: resolve each path in turn,
stopping at the first failure.  Returns the trace of attempted paths,
the handle map built so far, and whether all succeeded. -/
def resolveSignals (env : RunnerEnv) :
    List String → List (String × Nat) → List String × List (String × Nat) × Bool
  | [], acc => ([], acc, true)
  | s :: rest, acc =>
      match env.resolve s with
      | none => ([s], acc, false)
      | some h =>
          let t := resolveSignals env rest (acc ++ [(s, h)])
          (s :: t.1, t.2.1, t.2.2)

/-- The registration loop of Start: serve_actuator for each served
path, failing fast when its handle is missing from the map. -/
def registerActs (handles : List (String × Nat)) : List String → List String × Bool
  | [] => ([], true)
  | a :: rest =>
      if (handles.lookup a).isSome then
        let t := registerActs handles rest
        (a :: t.1, t.2)
      else
        ([], false)

/-- FixtureRunner::Start.  Mirrors the C++ sequence: resolver
creation, client creation, all-or-nothing resolution, actuator
registration, DAG initialization, client start, readiness wait; only
at the very end is running_ set to true. -/
def startRun (cfg : FixtureConfig) (env : RunnerEnv) : StartState :=
  if !env.resolverOk then ⟨false, [], [], []⟩
  else if !env.clientOk then ⟨false, [], [], []⟩
  else
    let r := resolveSignals env (allSignals cfg) []
    if !r.2.2 then ⟨false, r.2.1, r.1, []⟩
    else
      let reg := registerActs r.2.1 cfg.serves
      if !reg.2 then ⟨false, r.2.1, r.1, reg.1⟩
      else if !env.dagInit (createDAGMappings cfg) then ⟨false, r.2.1, r.1, reg.1⟩
      else if !env.clientStartOk then ⟨false, r.2.1, r.1, reg.1⟩
      else if !env.readyOk then ⟨false, r.2.1, r.1, reg.1⟩
      else ⟨true, r.2.1, r.1, reg.1⟩

/-- The exit decision of main for a loaded configuration: 1 when
IsRunning() is false after Start, otherwise 0 (after Run returns on
shutdown and Stop completes). -/
def exitOf (cfg : FixtureConfig) (env : RunnerEnv) : Nat :=
  if (startRun cfg env).running then 0 else 1

/-- main: LoadConfig then Start; the load result is never checked. -/
def runnerMain (vtParse : String → Option VT) (file : ConfigFile) (env : RunnerEnv) : Nat :=
  exitOf (loadConfig vtParse file) env

/-! ### The publish passes (Run tick and HandleActuation) -/

/-- The publish loop shared, statement for statement, by the Run tick
and by HandleActuation: skip an invalid output, skip an output without
a resolved handle, otherwise call publish and record its status. -/
def publishOutputs (env : RunnerEnv) (handles : List (String × Nat)) :
    List VSSSignal → List (String × VssValue × Bool)
  | [] => []
  | o :: rest =>
      if o.valid = false then publishOutputs env handles rest
      else
        match handles.lookup o.path with
        | none => publishOutputs env handles rest
        | some _ =>
            (o.path, o.value, env.publishOk o.path o.value) :: publishOutputs env handles rest

/-- One iteration of the Run loop: when running, process the DAG with
no updates and publish the outputs; the state is returned unchanged. -/
def runTick (env : RunnerEnv) (st : StartState) : StartState × List (String × VssValue × Bool) :=
  if st.running then (st, publishOutputs env st.handles (env.dagProcess []))
  else (st, [])

/-- FixtureRunner::HandleActuation: build the ".target" update, run
the DAG on it, and publish every valid output — all synchronously on
the protocol callback thread.  Returns the publish attempts the
callback itself performs. -/
def handleActuation (env : RunnerEnv) (st : StartState) (actuator : String)
    (v : VssValue) : List (String × VssValue × Bool) :=
  let update : SignalUpdate := { path := actuator ++ ".target", value := v }
  publishOutputs env st.handles (env.dagProcess [update])

/-! ### Theory of the find/replace loop -/

lemma isPrefixOf_eq_true {l₁ l₂ : List Char} :
    l₁.isPrefixOf l₂ = true ↔ l₁ <+: l₂ := List.isPrefixOf_iff_prefix

lemma replaceAllGo_nil (s r : List Char) (n : Nat) : replaceAllGo s r n [] = [] := by
  cases n <;> rfl

lemma replaceAllGo_succ (s r : List Char) (n : Nat) (c : Char) (cs : List Char) :
    replaceAllGo s r (n + 1) (c :: cs) =
      if s.isPrefixOf (c :: cs) then r ++ replaceAllGo s r n ((c :: cs).drop s.length)
      else c :: replaceAllGo s r n cs := rfl

lemma replaceAllGo_fuel (s r : List Char) (hs : s ≠ []) :
    ∀ n m code, code.length ≤ n → code.length ≤ m →
      replaceAllGo s r n code = replaceAllGo s r m code := by
  intro n
  induction n with
  | zero =>
      intro m code hn _
      have hcode : code = [] := List.eq_nil_of_length_eq_zero (Nat.le_zero.mp hn)
      subst hcode
      rw [replaceAllGo_nil, replaceAllGo_nil]
  | succ n ih =>
      intro m code hn hm
      cases code with
      | nil => rw [replaceAllGo_nil, replaceAllGo_nil]
      | cons c cs =>
          cases m with
          | zero => simp at hm
          | succ m' =>
              have hs1 : 1 ≤ s.length := List.length_pos.mpr hs
              rw [replaceAllGo_succ, replaceAllGo_succ]
              by_cases hp : s.isPrefixOf (c :: cs) = true
              · rw [if_pos hp, if_pos hp]
                congr 1
                apply ih
                · simp only [List.length_drop, List.length_cons]
                  simp only [List.length_cons] at hn
                  omega
                · simp only [List.length_drop, List.length_cons]
                  simp only [List.length_cons] at hm
                  omega
              · rw [if_neg hp, if_neg hp]
                congr 1
                apply ih
                · simp only [List.length_cons] at hn; omega
                · simp only [List.length_cons] at hm; omega

lemma replaceAll_nil (s r : List Char) : replaceAll s r [] = [] := rfl

lemma replaceAll_pos (s r code : List Char) (hs : s ≠ [])
    (h : s.isPrefixOf code = true) :
    replaceAll s r code = r ++ replaceAll s r (code.drop s.length) := by
  cases code with
  | nil =>
      exfalso
      have := isPrefixOf_eq_true.mp h
      exact hs (List.prefix_nil.mp this)
  | cons c cs =>
      have hs1 : 1 ≤ s.length := List.length_pos.mpr hs
      show replaceAllGo s r (cs.length + 1) (c :: cs) = _
      rw [replaceAllGo_succ, if_pos h]
      congr 1
      apply replaceAllGo_fuel s r hs
      · simp only [List.length_drop, List.length_cons]; omega
      · exact Nat.le_refl _

lemma replaceAll_neg (s r : List Char) (c : Char) (cs : List Char)
    (h : ¬ s.isPrefixOf (c :: cs) = true) :
    replaceAll s r (c :: cs) = c :: replaceAll s r cs := by
  show replaceAllGo s r (cs.length + 1) (c :: cs) = _
  rw [replaceAllGo_succ, if_neg h]
  rfl

/-- Decompose an occurrence inside an append into: inside the left
part, inside the right part, or straddling the boundary. -/
lemma infix_split {p l₁ l₂ : List Char} (h : p <:+: l₁ ++ l₂) :
    p <:+: l₁ ∨ p <:+: l₂ ∨
      ∃ u v, p = u ++ v ∧ u ≠ [] ∧ v ≠ [] ∧ u <:+ l₁ ∧ v <+: l₂ := by
  obtain ⟨a, b, hab⟩ := h
  have hlen := congrArg List.length hab
  simp only [List.length_append] at hlen
  have htake0 : l₁ = (a ++ (p ++ b)).take l₁.length := by
    rw [← List.append_assoc, hab, List.take_left]
  have hdrop0 : l₂ = (a ++ (p ++ b)).drop l₁.length := by
    rw [← List.append_assoc, hab, List.drop_left]
  by_cases h1 : a.length + p.length ≤ l₁.length
  · left
    have ha : a.length ≤ l₁.length := by omega
    rw [List.take_append_eq_append_take, List.take_of_length_le ha,
        List.take_append_eq_append_take,
        List.take_of_length_le (show p.length ≤ l₁.length - a.length by omega)] at htake0
    exact ⟨a, b.take (l₁.length - a.length - p.length), by
      rw [htake0]; simp [List.append_assoc]⟩
  · by_cases h2 : l₁.length ≤ a.length
    · right; left
      rw [List.drop_append_eq_append_drop, Nat.sub_eq_zero_of_le h2,
          List.drop_zero] at hdrop0
      exact ⟨a.drop l₁.length, b, by rw [hdrop0]; simp [List.append_assoc]⟩
    · right; right
      have ha : a.length < l₁.length := by omega
      have hk : l₁.length - a.length < p.length := by omega
      refine ⟨p.take (l₁.length - a.length), p.drop (l₁.length - a.length),
        (List.take_append_drop _ _).symm, ?_, ?_, ?_, ?_⟩
      · intro hnil
        have := congrArg List.length hnil
        simp only [List.length_take, List.length_nil] at this
        omega
      · intro hnil
        have := congrArg List.length hnil
        simp only [List.length_drop, List.length_nil] at this
        omega
      · rw [List.take_append_eq_append_take,
            List.take_of_length_le (Nat.le_of_lt ha),
            List.take_append_eq_append_take] at htake0
        have hz : l₁.length - a.length - p.length = 0 :=
          Nat.sub_eq_zero_of_le (Nat.le_of_lt hk)
        rw [hz, List.take_zero, List.append_nil] at htake0
        exact ⟨a, htake0.symm⟩
      · rw [List.drop_append_eq_append_drop,
            List.drop_eq_nil_of_le (Nat.le_of_lt ha),
            List.drop_append_eq_append_drop] at hdrop0
        have hz : l₁.length - a.length - p.length = 0 :=
          Nat.sub_eq_zero_of_le (Nat.le_of_lt hk)
        rw [hz, List.drop_zero, List.nil_append] at hdrop0
        exact ⟨b, hdrop0.symm⟩

/-- A prefix of an append that fits in the left part is a prefix of it. -/
lemma prefix_append_le {v X Y : List Char} (h : v <+: X ++ Y)
    (hle : v.length ≤ X.length) : v <+: X := by
  rw [List.prefix_iff_eq_take] at h ⊢
  rwa [List.take_append_of_le_length hle] at h

/-- A nonempty suffix of a list ending in x also ends in x. -/
lemma suffix_concat_ne {v l : List Char} {x : Char} (hv : v ≠ [])
    (h : v <:+ l ++ [x]) : ∃ v₀, v = v₀ ++ [x] ∧ v₀ <:+ l := by
  obtain ⟨t, ht⟩ := h
  rcases List.eq_nil_or_concat v with rfl | ⟨v₀, y, rfl⟩
  · exact absurd rfl hv
  · rw [List.concat_eq_append, ← List.append_assoc] at ht
    obtain ⟨h1, h2⟩ := List.append_inj' ht (by simp)
    have hy : y = x := by simpa using h2
    exact ⟨v₀, by rw [List.concat_eq_append, hy], ⟨t, h1⟩⟩

/-- Backward transfer of short prefixes through the rewriting: a
nonempty prefix of the output that is a suffix of a pattern no longer
than the replacement, and that can neither be a prefix of the
replacement, was already a prefix of the input. -/
lemma replaceAll_prefix_back (s r pat : List Char) (hs : s ≠ [])
    (hlen : pat.length ≤ r.length)
    (h3 : ∀ v, v ≠ [] → v <:+ pat → ¬ v <+: r) :
    ∀ n code, code.length ≤ n → ∀ v, v ≠ [] → v <:+ pat →
      v <+: replaceAll s r code → v <+: code := by
  intro n
  induction n with
  | zero =>
      intro code hn v hv _ hpre
      have hcode : code = [] := List.eq_nil_of_length_eq_zero (Nat.le_zero.mp hn)
      subst hcode
      rw [replaceAll_nil] at hpre
      exact absurd (List.prefix_nil.mp hpre) hv
  | succ n ih =>
      intro code hn v hv hvs hpre
      cases code with
      | nil =>
          rw [replaceAll_nil] at hpre
          exact absurd (List.prefix_nil.mp hpre) hv
      | cons c cs =>
          have hs1 : 1 ≤ s.length := List.length_pos.mpr hs
          simp only [List.length_cons] at hn
          by_cases hp : s.isPrefixOf (c :: cs) = true
          · rw [replaceAll_pos s r _ hs hp] at hpre
            have hvr : v <+: r :=
              prefix_append_le hpre (Nat.le_trans hvs.length_le hlen)
            exact absurd hvr (h3 v hv hvs)
          · rw [replaceAll_neg s r c cs hp] at hpre
            cases v with
            | nil => exact absurd rfl hv
            | cons vh vt =>
                rw [List.cons_prefix_cons] at hpre
                obtain ⟨rfl, hvt⟩ := hpre
                rcases eq_or_ne vt [] with rfl | hvt0
                · exact List.cons_prefix_cons.mpr ⟨rfl, List.nil_prefix⟩
                · have hvts : vt <:+ pat :=
                    List.IsSuffix.trans ⟨[vh], rfl⟩ hvs
                  have := ih cs (by omega) vt hvt0 hvts hvt
                  exact List.cons_prefix_cons.mpr ⟨rfl, this⟩

/-- The rewriting never leaves (and never creates) an occurrence of
the search string, provided the search cannot overlap the replacement:
it does not occur inside it, no nonempty proper prefix of it is a
suffix of it, and no nonempty suffix of it is a prefix of it. -/
lemma replaceAll_no_search (s r : List Char) (hs : s ≠ [])
    (hlen : s.length ≤ r.length)
    (h1 : ¬ s <:+: r)
    (h2 : ∀ u v, s = u ++ v → u ≠ [] → v ≠ [] → ¬ u <:+ r)
    (h3 : ∀ v, v ≠ [] → v <:+ s → ¬ v <+: r) :
    ∀ n code, code.length ≤ n → ¬ s <:+: replaceAll s r code := by
  intro n
  induction n with
  | zero =>
      intro code hn hinf
      have hcode : code = [] := List.eq_nil_of_length_eq_zero (Nat.le_zero.mp hn)
      subst hcode
      rw [replaceAll_nil] at hinf
      exact hs (List.infix_nil.mp hinf)
  | succ n ih =>
      intro code hn hinf
      cases code with
      | nil =>
          rw [replaceAll_nil] at hinf
          exact hs (List.infix_nil.mp hinf)
      | cons c cs =>
          have hs1 : 1 ≤ s.length := List.length_pos.mpr hs
          simp only [List.length_cons] at hn
          by_cases hp : s.isPrefixOf (c :: cs) = true
          · rw [replaceAll_pos s r _ hs hp] at hinf
            rcases infix_split hinf with h | h | ⟨u, v, hsuv, hu, hv, hur, _⟩
            · exact h1 h
            · refine ih _ ?_ h
              simp only [List.length_drop, List.length_cons]
              omega
            · exact h2 u v hsuv hu hv hur
          · rw [replaceAll_neg s r c cs hp] at hinf
            rcases List.infix_cons_iff.mp hinf with h | h
            · cases s with
              | nil => exact hs rfl
              | cons sh st =>
                  rw [List.cons_prefix_cons] at h
                  obtain ⟨rfl, hst⟩ := h
                  rcases eq_or_ne st [] with rfl | hst0
                  · exact hp (isPrefixOf_eq_true.mpr
                      (List.cons_prefix_cons.mpr ⟨rfl, List.nil_prefix⟩))
                  · have hsts : st <:+ sh :: st := ⟨[sh], rfl⟩
                    have := replaceAll_prefix_back (sh :: st) r (sh :: st) hs hlen h3
                      n cs (by omega) st hst0 hsts hst
                    exact hp (isPrefixOf_eq_true.mpr
                      (List.cons_prefix_cons.mpr ⟨rfl, this⟩))
            · exact ih cs (by omega) h

/-- The rewriting cannot create an occurrence of an unrelated pattern
that cannot overlap the replacement. -/
lemma replaceAll_no_new (s r pat : List Char) (hs : s ≠ [])
    (hlen : pat.length ≤ r.length)
    (hp1 : ¬ pat <:+: r)
    (hp2 : ∀ u v, pat = u ++ v → u ≠ [] → v ≠ [] → ¬ u <:+ r)
    (hp3 : ∀ v, v ≠ [] → v <:+ pat → ¬ v <+: r) :
    ∀ n code, code.length ≤ n → ¬ pat <:+: code →
      ¬ pat <:+: replaceAll s r code := by
  intro n
  induction n with
  | zero =>
      intro code hn hcode hinf
      have hc : code = [] := List.eq_nil_of_length_eq_zero (Nat.le_zero.mp hn)
      subst hc
      rw [replaceAll_nil] at hinf
      exact hcode hinf
  | succ n ih =>
      intro code hn hcode hinf
      cases code with
      | nil =>
          rw [replaceAll_nil] at hinf
          exact hcode hinf
      | cons c cs =>
          have hs1 : 1 ≤ s.length := List.length_pos.mpr hs
          simp only [List.length_cons] at hn
          by_cases hp : s.isPrefixOf (c :: cs) = true
          · rw [replaceAll_pos s r _ hs hp] at hinf
            have hcode' : ¬ pat <:+: (c :: cs).drop s.length := by
              intro hx
              exact hcode (List.IsInfix.trans hx (List.drop_suffix _ _).isInfix)
            rcases infix_split hinf with h | h | ⟨u, v, hsuv, hu, hv, hur, _⟩
            · exact hp1 h
            · refine ih _ ?_ hcode' h
              simp only [List.length_drop, List.length_cons]
              omega
            · exact hp2 u v hsuv hu hv hur
          · rw [replaceAll_neg s r c cs hp] at hinf
            have hcs : ¬ pat <:+: cs := by
              intro hx
              exact hcode (List.infix_cons hx)
            rcases List.infix_cons_iff.mp hinf with h | h
            · cases pat with
              | nil => exact hcode List.nil_infix
              | cons ph pt =>
                  rw [List.cons_prefix_cons] at h
                  obtain ⟨rfl, hpt⟩ := h
                  rcases eq_or_ne pt [] with rfl | hpt0
                  · exact hcode (List.IsPrefix.isInfix
                      (List.cons_prefix_cons.mpr ⟨rfl, List.nil_prefix⟩))
                  · have hpts : pt <:+ ph :: pt := ⟨[ph], rfl⟩
                    have := replaceAll_prefix_back s r (ph :: pt) hs hlen hp3
                      n cs (by omega) pt hpt0 hpts hpt
                    exact hcode (List.IsPrefix.isInfix
                      (List.cons_prefix_cons.mpr ⟨rfl, this⟩))
            · exact ih cs (by omega) hcs h

/-- A text without any occurrence of the search string is unchanged. -/
lemma replaceAll_id_of_no_occ (s r : List Char) (_hs : s ≠ []) :
    ∀ n code, code.length ≤ n → ¬ s <:+: code → replaceAll s r code = code := by
  intro n
  induction n with
  | zero =>
      intro code hn _
      have hc : code = [] := List.eq_nil_of_length_eq_zero (Nat.le_zero.mp hn)
      subst hc
      exact replaceAll_nil s r
  | succ n ih =>
      intro code hn hcode
      cases code with
      | nil => exact replaceAll_nil s r
      | cons c cs =>
          simp only [List.length_cons] at hn
          by_cases hp : s.isPrefixOf (c :: cs) = true
          · exact absurd (List.IsPrefix.isInfix (isPrefixOf_eq_true.mp hp)) hcode
          · rw [replaceAll_neg s r c cs hp]
            rw [ih cs (by omega) (fun hx => hcode (List.infix_cons hx))]

/-- Each occurrence of the search string is replaced exactly once and
scanning resumes after the inserted replacement: the replacement is
never re-matched. -/
lemma replaceAll_append_occ (s r : List Char) (hs : s ≠ []) :
    ∀ a b, ¬ s <:+: (a ++ s.dropLast) →
      replaceAll s r (a ++ s ++ b) = a ++ r ++ replaceAll s r b := by
  intro a
  induction a with
  | nil =>
      intro b _
      simp only [List.nil_append]
      have hp : s.isPrefixOf (s ++ b) = true :=
        isPrefixOf_eq_true.mpr (List.prefix_append s b)
      rw [replaceAll_pos s r _ hs hp, List.drop_left]
  | cons c a' ih =>
      intro b H
      have hs1 : 1 ≤ s.length := List.length_pos.mpr hs
      have hsplit : ∃ x, s.dropLast ++ [x] = s :=
        ⟨s.getLast hs, List.dropLast_concat_getLast hs⟩
      obtain ⟨x, hx⟩ := hsplit
      have hnp : ¬ (s.isPrefixOf ((c :: a') ++ s ++ b) = true) := by
        intro hp
        apply H
        have hpre : s <+: (c :: a') ++ s ++ b := isPrefixOf_eq_true.mp hp
        have hre : (c :: a') ++ s ++ b = ((c :: a') ++ s.dropLast) ++ ([x] ++ b) := by
          rw [← hx]; simp [List.append_assoc]
        rw [hre] at hpre
        have hfit : s.length ≤ ((c :: a') ++ s.dropLast).length := by
          simp only [List.length_append, List.length_cons, List.length_dropLast]
          omega
        exact (prefix_append_le hpre hfit).isInfix
      have hform : (c :: a') ++ s ++ b = c :: (a' ++ s ++ b) := by simp
      rw [hform] at hnp ⊢
      rw [replaceAll_neg s r c _ hnp]
      have H' : ¬ s <:+: (a' ++ s.dropLast) := by
        intro hx2
        exact H (List.infix_cons hx2)
      rw [ih b H']
      simp

/-! ### The concrete search and replacement shapes -/

lemma deps_head_len : ("deps[".data).length = 5 := rfl

lemma target_len : (".target".data).length = 7 := rfl

lemma searchQ_ne_nil (q : Char) (p : List Char) : searchQ q p ≠ [] := by
  simp [searchQ]

lemma searchQ_length (q : Char) (p : List Char) :
    (searchQ q p).length = p.length + 8 := by
  simp [searchQ, qhead, deps_head_len]

lemma replQ_length (q : Char) (p : List Char) :
    (replQ q p).length = p.length + 15 := by
  simp [replQ, qheadT]

lemma not_mem_qhead {q : Char} {p : List Char} (hq : q ≠ ']') (hp : ']' ∉ p) :
    ']' ∉ qhead q p := by
  intro h
  simp only [qhead, List.mem_append, List.mem_singleton] at h
  rcases h with ((h | h) | h) | h
  · revert h; decide
  · exact hq h.symm
  · exact hp h
  · exact hq h.symm

lemma not_mem_qheadT {q : Char} {p : List Char} (hq : q ≠ ']') (hp : ']' ∉ p) :
    ']' ∉ qheadT q p := by
  intro h
  simp only [qheadT, List.mem_append, List.mem_singleton] at h
  rcases h with (((h | h) | h) | h) | h
  · revert h; decide
  · exact hq h.symm
  · exact hp h
  · revert h; decide
  · exact hq h.symm

lemma count_bracket_qhead {q : Char} {p : List Char} (hq : q ≠ '[') (hp : '[' ∉ p) :
    List.count '[' (qhead q p) = 1 := by
  rw [qhead]
  simp only [List.count_append]
  have h3 : List.count '[' p = 0 := List.count_eq_zero.mpr hp
  have h2 : List.count '[' [q] = 0 :=
    List.count_eq_zero.mpr (by simp [Ne.symm hq])
  rw [h3, h2]
  decide

lemma count_bracket_qheadT {q : Char} {p : List Char} (hq : q ≠ '[') (hp : '[' ∉ p) :
    List.count '[' (qheadT q p) = 1 := by
  rw [qheadT]
  simp only [List.count_append]
  have h3 : List.count '[' p = 0 := List.count_eq_zero.mpr hp
  have h2 : List.count '[' [q] = 0 :=
    List.count_eq_zero.mpr (by simp [Ne.symm hq])
  rw [h3, h2]
  decide

/-- No nonempty proper prefix of a bracket-terminated search can be a
suffix of a bracket-terminated replacement whose head has no bracket. -/
lemma overlap_prefix_suffix {dh st : List Char} (hdh : ']' ∉ dh) :
    ∀ u v, dh ++ [']'] = u ++ v → u ≠ [] → v ≠ [] → ¬ u <:+ (st ++ [']']) := by
  intro u v huv hu hv hus
  obtain ⟨u₀, hu0, _⟩ := suffix_concat_ne hu hus
  subst hu0
  rcases List.eq_nil_or_concat v with rfl | ⟨v₀, w, rfl⟩
  · exact hv rfl
  · rw [List.concat_eq_append, ← List.append_assoc] at huv
    obtain ⟨h1, _⟩ := List.append_inj' huv (by simp)
    apply hdh
    rw [h1]
    simp

/-- No nonempty suffix of a strictly shorter bracket-terminated search
can be a prefix of a bracket-terminated replacement whose head has no
bracket. -/
lemma overlap_suffix_front {dh st : List Char} (hst : ']' ∉ st)
    (hlen : dh.length < st.length) :
    ∀ v, v ≠ [] → v <:+ (dh ++ [']']) → ¬ v <+: (st ++ [']']) := by
  intro v hv hvs hvp
  obtain ⟨v₀, hv0, hv0s⟩ := suffix_concat_ne hv hvs
  obtain ⟨t, ht⟩ := hvp
  rcases List.eq_nil_or_concat t with rfl | ⟨t₀, y, rfl⟩
  · rw [List.append_nil] at ht
    have hlv := congrArg List.length ht
    have hlv0 := congrArg List.length hv0
    have hvs_len := hv0s.length_le
    simp only [List.length_append, List.length_cons, List.length_nil] at hlv hlv0
    omega
  · rw [List.concat_eq_append, ← List.append_assoc] at ht
    obtain ⟨h1, _⟩ := List.append_inj' ht (by simp)
    apply hst
    rw [← h1, hv0]
    simp

/-- The search never occurs inside the replacement. -/
lemma not_infix_search_repl {q q' : Char} {p : List Char}
    (hq : q ≠ ']' ∧ q ≠ '[') (hq' : q' ≠ ']' ∧ q' ≠ '[')
    (hp : '[' ∉ p ∧ ']' ∉ p) :
    ¬ searchQ q p <:+: replQ q' p := by
  intro hinf
  obtain ⟨x, y, hxy⟩ := hinf
  rcases List.eq_nil_or_concat y with rfl | ⟨y₀, w, rfl⟩
  · rw [List.append_nil, searchQ, replQ, ← List.append_assoc] at hxy
    obtain ⟨h1, _⟩ := List.append_inj' hxy (by simp)
    have hlx := congrArg List.length h1
    simp only [List.length_append, qhead, qheadT, deps_head_len, target_len,
      List.length_cons, List.length_nil] at hlx
    have hx7 : x.length = 7 := by omega
    have hcnt : List.count '[' x + List.count '[' (qhead q p) =
        List.count '[' (qheadT q' p) := by
      rw [← List.count_append, h1]
    rw [count_bracket_qhead hq.2 hp.1, count_bracket_qheadT hq'.2 hp.1] at hcnt
    have hx0 : '[' ∉ x := List.count_eq_zero.mp (by omega)
    apply hx0
    have htk : x.take 5 = "deps[".data := by
      have h2 := congrArg (List.take 5) h1
      rw [List.take_append_of_le_length (by omega)] at h2
      rw [show qheadT q' p =
            "deps[".data ++ ([q'] ++ (p ++ (".target".data ++ [q']))) by
          simp [qheadT, List.append_assoc]] at h2
      rw [List.take_append_of_le_length
            (show (5 : Nat) ≤ ("deps[".data).length by decide)] at h2
      rw [List.take_of_length_le
            (show ("deps[".data).length ≤ 5 by decide)] at h2
      exact h2
    have : '[' ∈ x.take 5 := by rw [htk]; decide
    exact (List.take_sublist 5 x).subset this
  · rw [List.concat_eq_append, ← List.append_assoc, replQ] at hxy
    obtain ⟨h1, _⟩ := List.append_inj' hxy (by simp)
    apply not_mem_qheadT hq'.1 hp.2
    rw [← h1]
    have : ']' ∈ searchQ q p := by simp [searchQ]
    simp only [List.mem_append]
    left; right
    exact this

lemma qhead_length (q : Char) (p : List Char) :
    (qhead q p).length = p.length + 7 := by
  simp [qhead]

lemma qheadT_length (q : Char) (p : List Char) :
    (qheadT q p).length = p.length + 14 := by
  simp [qheadT]

/-- After one pass, the pass's own search string no longer occurs. -/
lemma pass_no_search (q : Char) (p : List Char) (hq : q ≠ ']' ∧ q ≠ '[')
    (hp : '[' ∉ p ∧ ']' ∉ p) (code : List Char) :
    ¬ searchQ q p <:+: replaceAll (searchQ q p) (replQ q p) code := by
  apply replaceAll_no_search (searchQ q p) (replQ q p) (searchQ_ne_nil q p)
    (by rw [searchQ_length, replQ_length]; omega)
    (not_infix_search_repl hq hq hp)
    (overlap_prefix_suffix (not_mem_qhead hq.1 hp.2))
    (overlap_suffix_front (not_mem_qheadT hq.1 hp.2)
      (by rw [qhead_length, qheadT_length]; omega))
    code.length code (Nat.le_refl _)

/-- A pass for one quoting convention cannot create an occurrence of
the other convention's search string. -/
lemma pass_preserves_no (q q' : Char) (p : List Char)
    (hq : q ≠ ']' ∧ q ≠ '[') (hq' : q' ≠ ']' ∧ q' ≠ '[')
    (hp : '[' ∉ p ∧ ']' ∉ p) (code : List Char)
    (hcode : ¬ searchQ q p <:+: code) :
    ¬ searchQ q p <:+: replaceAll (searchQ q' p) (replQ q' p) code := by
  apply replaceAll_no_new (searchQ q' p) (replQ q' p) (searchQ q p)
    (searchQ_ne_nil q' p)
    (by rw [searchQ_length, replQ_length]; omega)
    (not_infix_search_repl hq hq' hp)
    (overlap_prefix_suffix (not_mem_qhead hq.1 hp.2))
    (overlap_suffix_front (not_mem_qheadT hq'.1 hp.2)
      (by rw [qhead_length, qheadT_length]; omega))
    code.length code (Nat.le_refl _) hcode

lemma goodPath_brackets {p : List Char} (hp : goodPath p) : '[' ∉ p ∧ ']' ∉ p :=
  ⟨fun h => (hp _ h).2.2.1 rfl, fun h => (hp _ h).2.2.2 rfl⟩

/-- After the per-actuator rewrite, no double-quote reference to the
actuator remains. -/
lemma rewriteOnce_no_searchD (p code : List Char) (hp : '[' ∉ p ∧ ']' ∉ p) :
    ¬ searchQ dQuote p <:+: rewriteOnce p code := by
  unfold rewriteOnce
  apply pass_preserves_no dQuote sQuote p (by decide) (by decide) hp
  exact pass_no_search dQuote p (by decide) hp _

/-- After the per-actuator rewrite, no single-quote reference to the
actuator remains. -/
lemma rewriteOnce_no_searchS (p code : List Char) (hp : '[' ∉ p ∧ ']' ∉ p) :
    ¬ searchQ sQuote p <:+: rewriteOnce p code :=
  pass_no_search sQuote p (by decide) hp _

/-- The per-actuator rewrite is idempotent. -/
lemma rewriteOnce_idem (p code : List Char) (hp : '[' ∉ p ∧ ']' ∉ p) :
    rewriteOnce p (rewriteOnce p code) = rewriteOnce p code := by
  have hD := rewriteOnce_no_searchD p code hp
  have hS := rewriteOnce_no_searchS p code hp
  show replaceAll (searchQ sQuote p) (replQ sQuote p)
      (replaceAll (searchQ dQuote p) (replQ dQuote p) (rewriteOnce p code)) =
    rewriteOnce p code
  rw [replaceAll_id_of_no_occ (searchQ dQuote p) (replQ dQuote p)
      (searchQ_ne_nil _ _) (rewriteOnce p code).length (rewriteOnce p code)
      (Nat.le_refl _) hD]
  exact replaceAll_id_of_no_occ (searchQ sQuote p) (replQ sQuote p)
    (searchQ_ne_nil _ _) (rewriteOnce p code).length (rewriteOnce p code)
    (Nat.le_refl _) hS

/-! ### Claim C4 -/

/-- C4: for a served path P (a well-formed signal path: no quote or
bracket characters) the transform-text rewriting substitutes each
occurrence of a reference to P, in either quoting convention, with the
same reference to P.target exactly once, resuming the scan after the
replacement (never re-matching it); after the rewrite no un-rewritten
reference remains in either convention, and applying the rewrite again
to already-rewritten text leaves it unchanged (idempotence). -/
theorem c4_transform_rewriting (p code : List Char) (hp : goodPath p) :
    (∀ a b, code = a ++ searchQ dQuote p ++ b →
        ¬ searchQ dQuote p <:+: (a ++ (searchQ dQuote p).dropLast) →
        replaceAll (searchQ dQuote p) (replQ dQuote p) code =
          a ++ replQ dQuote p ++ replaceAll (searchQ dQuote p) (replQ dQuote p) b) ∧
    (∀ a b, code = a ++ searchQ sQuote p ++ b →
        ¬ searchQ sQuote p <:+: (a ++ (searchQ sQuote p).dropLast) →
        replaceAll (searchQ sQuote p) (replQ sQuote p) code =
          a ++ replQ sQuote p ++ replaceAll (searchQ sQuote p) (replQ sQuote p) b) ∧
    ¬ searchQ dQuote p <:+: codeRewrite [p] code ∧
    ¬ searchQ sQuote p <:+: codeRewrite [p] code ∧
    codeRewrite [p] (codeRewrite [p] code) = codeRewrite [p] code := by
  have hb := goodPath_brackets hp
  refine ⟨?_, ?_, ?_, ?_, ?_⟩
  · intro a b hcode hocc
    subst hcode
    exact replaceAll_append_occ _ _ (searchQ_ne_nil _ _) a b hocc
  · intro a b hcode hocc
    subst hcode
    exact replaceAll_append_occ _ _ (searchQ_ne_nil _ _) a b hocc
  · exact rewriteOnce_no_searchD p code hb
  · exact rewriteOnce_no_searchS p code hb
  · exact rewriteOnce_idem p code hb

/-- Witness inputs for C4. -/
def c4wP : List Char := "A.b".data

def c4wA : List Char := "y = ".data

def c4wB : List Char := " + 1".data

def c4wCode : List Char := c4wA ++ searchQ dQuote c4wP ++ c4wB

/-- C4 witness: the theorem applied to the path A.b and a transform
text holding one double-quoted reference. -/
theorem c4_transform_rewriting_witness :
    goodPath c4wP ∧
    (¬ searchQ dQuote c4wP <:+: (c4wA ++ (searchQ dQuote c4wP).dropLast)) ∧
    replaceAll (searchQ dQuote c4wP) (replQ dQuote c4wP) c4wCode =
      c4wA ++ replQ dQuote c4wP ++
        replaceAll (searchQ dQuote c4wP) (replQ dQuote c4wP) c4wB ∧
    codeRewrite [c4wP] (codeRewrite [c4wP] c4wCode) = codeRewrite [c4wP] c4wCode := by
  refine ⟨by decide, by decide, ?_, ?_⟩
  · exact (c4_transform_rewriting c4wP c4wCode (by decide)).1 c4wA c4wB rfl (by decide)
  · exact (c4_transform_rewriting c4wP c4wCode (by decide)).2.2.2.2

/-! ### Startup lemmas -/

lemma lookup_append_isSome {l₁ l₂ : List (String × Nat)} {k : String} :
    ((l₁ ++ l₂).lookup k).isSome ↔ (l₁.lookup k).isSome ∨ (l₂.lookup k).isSome := by
  rw [List.lookup_append]
  cases l₁.lookup k <;> simp [Option.or]

/-- The resolution loop only appends to the accumulated handle map. -/
lemma resolveSignals_acc (env : RunnerEnv) :
    ∀ (l : List String) (acc : List (String × Nat)),
      ∃ ext, (resolveSignals env l acc).2.1 = acc ++ ext := by
  intro l
  induction l with
  | nil => intro acc; exact ⟨[], by simp [resolveSignals]⟩
  | cons s0 rest ih =>
      intro acc
      cases hres : env.resolve s0 with
      | none => exact ⟨[], by simp [resolveSignals, hres]⟩
      | some h =>
          obtain ⟨ext, hext⟩ := ih (acc ++ [(s0, h)])
          refine ⟨[(s0, h)] ++ ext, ?_⟩
          simp only [resolveSignals, hres]
          rw [hext, List.append_assoc]

/-- When the resolution loop reports success, every requested path has
a handle in the produced map. -/
lemma resolveSignals_ok_lookup (env : RunnerEnv) :
    ∀ (l : List String) (acc : List (String × Nat)),
      (resolveSignals env l acc).2.2 = true →
      ∀ s ∈ l, ((resolveSignals env l acc).2.1.lookup s).isSome := by
  intro l
  induction l with
  | nil => intro acc _ s hs; exact absurd hs (List.not_mem_nil s)
  | cons s0 rest ih =>
      intro acc hok s hs
      cases hres : env.resolve s0 with
      | none => simp [resolveSignals, hres] at hok
      | some h =>
          have hok' : (resolveSignals env rest (acc ++ [(s0, h)])).2.2 = true := by
            simpa [resolveSignals, hres] using hok
          have hhandles : (resolveSignals env (s0 :: rest) acc).2.1 =
              (resolveSignals env rest (acc ++ [(s0, h)])).2.1 := by
            simp [resolveSignals, hres]
          rw [hhandles]
          rcases List.mem_cons.mp hs with heq | hs'
          · subst heq
            obtain ⟨ext, hext⟩ := resolveSignals_acc env rest (acc ++ [(s, h)])
            rw [hext, List.append_assoc]
            rw [lookup_append_isSome]
            right
            rw [lookup_append_isSome]
            left
            simp [List.lookup]
          · exact ih (acc ++ [(s0, h)]) hok' s hs'

/-- On a failing input the resolution loop reports failure and its
trace stops right after the first unresolvable path. -/
lemma resolveSignals_fail_trace (env : RunnerEnv) :
    ∀ (l : List String) (acc : List (String × Nat)),
      (∃ s ∈ l, env.resolve s = none) →
      (resolveSignals env l acc).2.2 = false ∧
      (resolveSignals env l acc).1 =
        l.take (l.findIdx (fun s => (env.resolve s).isNone) + 1) := by
  intro l
  induction l with
  | nil => intro acc h; obtain ⟨s, hs, _⟩ := h; exact absurd hs (List.not_mem_nil s)
  | cons s0 rest ih =>
      intro acc hex
      cases hres : env.resolve s0 with
      | none =>
          constructor
          · simp [resolveSignals, hres]
          · simp [resolveSignals, hres, List.findIdx_cons]
      | some h =>
          have hex' : ∃ s ∈ rest, env.resolve s = none := by
            obtain ⟨s, hs, hrs⟩ := hex
            rcases List.mem_cons.mp hs with rfl | hs'
            · rw [hres] at hrs; exact absurd hrs (by simp)
            · exact ⟨s, hs', hrs⟩
          obtain ⟨hok, htr⟩ := ih (acc ++ [(s0, h)]) hex'
          constructor
          · simpa [resolveSignals, hres] using hok
          · have hidx : (s0 :: rest).findIdx (fun s => (env.resolve s).isNone) =
                rest.findIdx (fun s => (env.resolve s).isNone) + 1 := by
              simp [List.findIdx_cons, hres]
            rw [hidx]
            simp only [resolveSignals, hres, List.take_succ_cons]
            rw [htr]

/-- A running state implies: resolver and client were created, the
resolution loop succeeded, and the handle map is the loop's map. -/
lemma startRun_running_cases (cfg : FixtureConfig) (env : RunnerEnv)
    (h : (startRun cfg env).running = true) :
    env.resolverOk = true ∧ env.clientOk = true ∧
    (resolveSignals env (allSignals cfg) []).2.2 = true ∧
    (startRun cfg env).handles = (resolveSignals env (allSignals cfg) []).2.1 := by
  have hr : env.resolverOk = true := by
    by_contra hx
    rw [Bool.not_eq_true] at hx
    unfold startRun at h
    simp [hx] at h
  have hc : env.clientOk = true := by
    by_contra hx
    rw [Bool.not_eq_true] at hx
    unfold startRun at h
    simp [hr, hx] at h
  have hok : (resolveSignals env (allSignals cfg) []).2.2 = true := by
    by_contra hx
    rw [Bool.not_eq_true] at hx
    unfold startRun at h
    simp [hr, hc, hx] at h
  refine ⟨hr, hc, hok, ?_⟩
  unfold startRun
  simp only [hr, hc, hok, Bool.not_true, Bool.not_false, Bool.false_eq_true,
    if_false, if_true]
  repeat (first | rfl | split)

/-- C1: when resolver and client creation succeed but some path in the
union of the served paths and the mapping outputs does not resolve,
the runner never reaches the running state, the process exits with
code 1, the resolve-call trace stops right after the first failing
path, and no actuator is registered. -/
theorem c1_resolution_all_or_nothing (cfg : FixtureConfig) (env : RunnerEnv)
    (hres : env.resolverOk = true) (hcli : env.clientOk = true)
    (hfail : ∃ s ∈ allSignals cfg, env.resolve s = none) :
    (startRun cfg env).running = false ∧
    exitOf cfg env = 1 ∧
    (startRun cfg env).resolveTrace =
      (allSignals cfg).take
        ((allSignals cfg).findIdx (fun s => (env.resolve s).isNone) + 1) ∧
    (startRun cfg env).registered = [] := by
  obtain ⟨hok, htr⟩ := resolveSignals_fail_trace env (allSignals cfg) [] hfail
  have hst : startRun cfg env =
      ⟨false, (resolveSignals env (allSignals cfg) []).2.1,
        (resolveSignals env (allSignals cfg) []).1, []⟩ := by
    unfold startRun
    simp [hres, hcli, hok]
  refine ⟨by rw [hst], ?_, ?_, by rw [hst]⟩
  · unfold exitOf
    rw [hst]
    simp
  · rw [hst, ← htr]

def c1wCfg : FixtureConfig := { serves := ["A"], mappings := [] }

/-- An environment whose resolver cannot resolve anything, everything
else healthy. -/
def c1wEnv : RunnerEnv :=
  { resolverOk := true
    clientOk := true
    resolve := fun _ => none
    dagInit := fun _ => true
    clientStartOk := true
    readyOk := true
    dagProcess := fun _ => []
    publishOk := fun _ _ => true }

/-- C1 witness: one served actuator, resolution fails. -/
theorem c1_resolution_all_or_nothing_witness :
    c1wEnv.resolverOk = true ∧ c1wEnv.clientOk = true ∧
    (∃ s ∈ allSignals c1wCfg, c1wEnv.resolve s = none) ∧
    (startRun c1wCfg c1wEnv).running = false ∧ exitOf c1wCfg c1wEnv = 1 :=
  ⟨rfl, rfl, ⟨"A", by decide, rfl⟩,
    (c1_resolution_all_or_nothing c1wCfg c1wEnv rfl rfl ⟨"A", by decide, rfl⟩).1,
    (c1_resolution_all_or_nothing c1wCfg c1wEnv rfl rfl ⟨"A", by decide, rfl⟩).2.1⟩

/-- C2 (amended): when the runner reaches the running state, every
path in the union of the served paths and the mapping output keys has
a resolved handle; dependency-only paths and .target variants are not
resolved at startup. -/
theorem c2_amended_handles_cover_outputs (cfg : FixtureConfig) (env : RunnerEnv)
    (hrun : (startRun cfg env).running = true) :
    ∀ s, (s ∈ cfg.serves ∨ s ∈ cfg.mappings.map Prod.fst) →
      ((startRun cfg env).handles.lookup s).isSome = true := by
  obtain ⟨_, _, hok, hh⟩ := startRun_running_cases cfg env hrun
  intro s hs
  rw [hh]
  apply resolveSignals_ok_lookup env (allSignals cfg) [] hok
  unfold allSignals
  rw [List.mem_dedup, List.mem_append]
  exact hs

def c2wCfg : FixtureConfig := { serves := ["A"], mappings := [("B", {})] }

/-- An environment where every external operation succeeds and every
path resolves. -/
def allOkEnv : RunnerEnv :=
  { resolverOk := true
    clientOk := true
    resolve := fun _ => some 0
    dagInit := fun _ => true
    clientStartOk := true
    readyOk := true
    dagProcess := fun _ => []
    publishOk := fun _ _ => true }

/-- C2 witness: a running fixture with one served path and one mapping
output; both have handles. -/
theorem c2_amended_handles_cover_outputs_witness :
    (startRun c2wCfg allOkEnv).running = true ∧
    ("A" ∈ c2wCfg.serves ∨ "A" ∈ c2wCfg.mappings.map Prod.fst) ∧
    ((startRun c2wCfg allOkEnv).handles.lookup "A").isSome = true ∧
    ((startRun c2wCfg allOkEnv).handles.lookup "B").isSome = true :=
  ⟨by decide, Or.inl (by decide),
    c2_amended_handles_cover_outputs c2wCfg allOkEnv (by decide) "A"
      (Or.inl (by decide)),
    c2_amended_handles_cover_outputs c2wCfg allOkEnv (by decide) "B"
      (Or.inr (by decide))⟩

def c2xCfg : FixtureConfig :=
  { serves := ["A"], mappings := [("B", { depends_on := ["C"] })] }

/-- C2 counterexample: with every path resolvable and the runner
running, the dependency C (referenced by mapping B) and the rewritten
identifier A.target have no resolved handle: Start never requests
them.  This refutes the claim that every dependency and every
identifier of the rewritten table has a handle before the scheduler
starts. -/
theorem c2_counterexample_dependency_unresolved :
    (startRun c2xCfg allOkEnv).running = true ∧
    (∃ m, ("B", m) ∈ c2xCfg.mappings ∧ "C" ∈ m.depends_on) ∧
    ((createDAGMappings c2xCfg).lookup "A.target").isSome = true ∧
    (startRun c2xCfg allOkEnv).handles.lookup "C" = none ∧
    (startRun c2xCfg allOkEnv).handles.lookup "A.target" = none := by
  refine ⟨by decide, ⟨{ depends_on := ["C"] }, by decide, by decide⟩, ?_, by decide, by decide⟩
  decide

/-! ### Claims C6 and C7 -/

lemma rewriteDeps_length (serves : List String) :
    ∀ deps : List String, (rewriteDeps serves deps).length = deps.length := by
  intro deps
  induction deps with
  | nil => rfl
  | cons d rest ih => simp [rewriteDeps, ih]

lemma rewriteDeps_get (serves : List String) :
    ∀ (deps : List String) (i : Nat) (hi : i < deps.length)
      (hi2 : i < (rewriteDeps serves deps).length),
      (rewriteDeps serves deps).get ⟨i, hi2⟩ =
        (if deps.get ⟨i, hi⟩ ∈ serves then deps.get ⟨i, hi⟩ ++ ".target"
         else deps.get ⟨i, hi⟩) := by
  intro deps
  induction deps with
  | nil => intro i hi _; simp at hi
  | cons d rest ih =>
      intro i hi hi2
      cases i with
      | zero => rfl
      | succ j =>
          simp only [List.length_cons] at hi
          have hj2 : j < (rewriteDeps serves rest).length := by
            rw [rewriteDeps_length]; omega
          show (rewriteDeps serves rest).get ⟨j, hj2⟩ = _
          exact ih j (by omega) hj2

/-- C6: for every mapping, the depends_on rewriting keeps the number
and order of dependencies, replaces each entry equal to a served path
with the entry plus ".target", and keeps every other entry unchanged. -/
theorem c6_depends_on_rewriting (serves : List String) (m : SignalMapping) :
    (transformMapping serves m).depends_on.length = m.depends_on.length ∧
    ∀ (i : Nat) (hi : i < m.depends_on.length)
      (hi2 : i < (transformMapping serves m).depends_on.length),
      (transformMapping serves m).depends_on.get ⟨i, hi2⟩ =
        (if m.depends_on.get ⟨i, hi⟩ ∈ serves
         then m.depends_on.get ⟨i, hi⟩ ++ ".target"
         else m.depends_on.get ⟨i, hi⟩) := by
  constructor
  · exact rewriteDeps_length serves m.depends_on
  · intro i hi hi2
    exact rewriteDeps_get serves m.depends_on i hi hi2

def c6wM : SignalMapping := { depends_on := ["A", "B"] }

/-- C6 witness: one served and one non-served dependency. -/
theorem c6_depends_on_rewriting_witness :
    (transformMapping ["A"] c6wM).depends_on.length = c6wM.depends_on.length ∧
    (transformMapping ["A"] c6wM).depends_on.get ⟨0, by decide⟩ =
      (if c6wM.depends_on.get ⟨0, by decide⟩ ∈ ["A"]
       then c6wM.depends_on.get ⟨0, by decide⟩ ++ ".target"
       else c6wM.depends_on.get ⟨0, by decide⟩) ∧
    (transformMapping ["A"] c6wM).depends_on.get ⟨1, by decide⟩ =
      (if c6wM.depends_on.get ⟨1, by decide⟩ ∈ ["A"]
       then c6wM.depends_on.get ⟨1, by decide⟩ ++ ".target"
       else c6wM.depends_on.get ⟨1, by decide⟩) :=
  ⟨(c6_depends_on_rewriting ["A"] c6wM).1,
    (c6_depends_on_rewriting ["A"] c6wM).2 0 (by decide) (by decide),
    (c6_depends_on_rewriting ["A"] c6wM).2 1 (by decide) (by decide)⟩

lemma target_key_inj {a P : String} (h : a ++ ".target" = P ++ ".target") : a = P := by
  apply String.ext
  have hd := congrArg String.data h
  rw [String.data_append, String.data_append] at hd
  exact List.append_cancel_right hd

/-- addTargets never changes an existing entry. -/
lemma addTargets_preserves {k : String} {m : SignalMapping} :
    ∀ (serves : List String) (tbl : List (String × SignalMapping)),
      tbl.lookup k = some m → (addTargets serves tbl).lookup k = some m := by
  intro serves
  induction serves with
  | nil => intro tbl hl; exact hl
  | cons a rest ih =>
      intro tbl hl
      show (addTargets rest _).lookup k = some m
      by_cases hp : (tbl.lookup (a ++ ".target")).isSome
      · rw [if_pos hp]
        exact ih tbl hl
      · rw [if_neg hp]
        apply ih
        rw [List.lookup_append, hl]
        rfl

/-- Every served path gets a ".target" entry; when the incoming table
has no entry under that key, the entry is the synthesized input node. -/
lemma addTargets_lookup :
    ∀ (serves : List String) (tbl : List (String × SignalMapping)) (P : String),
      P ∈ serves →
      ∃ m, (addTargets serves tbl).lookup (P ++ ".target") = some m ∧
        (tbl.lookup (P ++ ".target") = none → m = targetMapping (P ++ ".target")) := by
  intro serves
  induction serves with
  | nil => intro tbl P hP; exact absurd hP (List.not_mem_nil P)
  | cons a rest ih =>
      intro tbl P hP
      by_cases hp : (tbl.lookup (a ++ ".target")).isSome
      · have hstep : addTargets (a :: rest) tbl = addTargets rest tbl := by
          simp [addTargets, hp]
        rcases List.mem_cons.mp hP with heq | hPr
        · subst heq
          obtain ⟨m0, hm0⟩ := Option.isSome_iff_exists.mp hp
          refine ⟨m0, ?_, ?_⟩
          · rw [hstep]; exact addTargets_preserves rest tbl hm0
          · intro hnone; rw [hnone] at hm0; cases hm0
        · obtain ⟨m, hm, hcond⟩ := ih tbl P hPr
          exact ⟨m, by rw [hstep]; exact hm, hcond⟩
      · have hnone : tbl.lookup (a ++ ".target") = none :=
          Option.not_isSome_iff_eq_none.mp hp
        have hstep : addTargets (a :: rest) tbl =
            addTargets rest (tbl ++ [(a ++ ".target", targetMapping (a ++ ".target"))]) := by
          simp [addTargets, hp]
        rcases List.mem_cons.mp hP with heq | hPr
        · subst heq
          refine ⟨targetMapping (P ++ ".target"), ?_, fun _ => rfl⟩
          rw [hstep]
          apply addTargets_preserves
          rw [List.lookup_append, hnone]
          simp [List.lookup]
        · by_cases haP : a = P
          · subst haP
            refine ⟨targetMapping (a ++ ".target"), ?_, fun _ => rfl⟩
            rw [hstep]
            apply addTargets_preserves
            rw [List.lookup_append, hnone]
            simp [List.lookup]
          · have hkey : ¬ ((P ++ ".target") = (a ++ ".target")) := by
              intro he
              exact haP (target_key_inj he).symm
            obtain ⟨m, hm, hcond⟩ :=
              ih (tbl ++ [(a ++ ".target", targetMapping (a ++ ".target"))]) P hPr
            refine ⟨m, by rw [hstep]; exact hm, ?_⟩
            intro hn
            apply hcond
            rw [List.lookup_append, hn]
            have hb : (P ++ ".target" == a ++ ".target") = false :=
              beq_eq_false_iff_ne.mpr hkey
            simp [List.lookup, hb]

lemma lookup_none_keys {tbl : List (String × SignalMapping)} {k : String}
    (h : ¬ (tbl.lookup k).isSome = true) : k ∉ tbl.map Prod.fst := by
  intro hmem
  obtain ⟨p, hp, hk⟩ := List.mem_map.mp hmem
  apply h
  rw [List.lookup_isSome_iff]
  exact ⟨p, hp, by simp [hk]⟩

/-- The guard in addTargets keeps the table's keys duplicate-free. -/
lemma addTargets_nodup :
    ∀ (serves : List String) (tbl : List (String × SignalMapping)),
      (tbl.map Prod.fst).Nodup → ((addTargets serves tbl).map Prod.fst).Nodup := by
  intro serves
  induction serves with
  | nil => intro tbl h; exact h
  | cons a rest ih =>
      intro tbl h
      by_cases hp : (tbl.lookup (a ++ ".target")).isSome
      · have hstep : addTargets (a :: rest) tbl = addTargets rest tbl := by
          simp [addTargets, hp]
        rw [hstep]; exact ih tbl h
      · have hstep : addTargets (a :: rest) tbl =
            addTargets rest (tbl ++ [(a ++ ".target", targetMapping (a ++ ".target"))]) := by
          simp [addTargets, hp]
        rw [hstep]
        apply ih
        rw [List.map_append, List.nodup_append]
        refine ⟨h, by simp, ?_⟩
        intro x hx hx2
        simp only [List.map_cons, List.map_nil, List.mem_singleton] at hx2
        subst hx2
        exact lookup_none_keys hp hx

/-- C7 (amended): for every served path P the rewritten table contains
an entry keyed P.target; when the user mappings hold no mapping under
that key, the entry is the synthesized external-input node (no
dependencies, no transform, actuator source); a pre-existing user
mapping under that key is kept instead; and the table never holds two
entries under one identifier. -/
theorem c7_target_input_nodes (cfg : FixtureConfig)
    (hnod : (cfg.mappings.map Prod.fst).Nodup) :
    ((createDAGMappings cfg).map Prod.fst).Nodup ∧
    ∀ P ∈ cfg.serves,
      ∃ m, (createDAGMappings cfg).lookup (P ++ ".target") = some m ∧
        (cfg.mappings.lookup (P ++ ".target") = none →
          m = targetMapping (P ++ ".target") ∧ m.depends_on = [] ∧
          m.transform = none ∧ m.source = some ⟨"actuator", P ++ ".target"⟩) := by
  have hkeys : ((cfg.mappings.map
      (fun nm => (nm.1, transformMapping cfg.serves nm.2))).map Prod.fst) =
      cfg.mappings.map Prod.fst := by
    rw [List.map_map]
    rfl
  constructor
  · apply addTargets_nodup
    rw [hkeys]
    exact hnod
  · intro P hP
    obtain ⟨m, hm, hcond⟩ := addTargets_lookup cfg.serves
      (cfg.mappings.map (fun nm => (nm.1, transformMapping cfg.serves nm.2))) P hP
    refine ⟨m, hm, fun hn => ?_⟩
    have hbn : (cfg.mappings.map
        (fun nm => (nm.1, transformMapping cfg.serves nm.2))).lookup
          (P ++ ".target") = none := by
      rw [List.lookup_eq_none_iff] at hn ⊢
      intro p hp
      obtain ⟨q, hq, hqe⟩ := List.mem_map.mp hp
      have := hn q hq
      rw [← hqe]
      simpa using this
    have hmt := hcond hbn
    subst hmt
    exact ⟨rfl, rfl, rfl, rfl⟩

def c7wCfg : FixtureConfig := { serves := ["A"], mappings := [("B", {})] }

/-- C7 witness: a served path with no pre-existing .target mapping. -/
theorem c7_target_input_nodes_witness :
    (c7wCfg.mappings.map Prod.fst).Nodup ∧ "A" ∈ c7wCfg.serves ∧
    ((createDAGMappings c7wCfg).map Prod.fst).Nodup ∧
    (∃ m, (createDAGMappings c7wCfg).lookup ("A" ++ ".target") = some m ∧
      (c7wCfg.mappings.lookup ("A" ++ ".target") = none →
        m = targetMapping ("A" ++ ".target") ∧ m.depends_on = [] ∧
        m.transform = none ∧ m.source = some ⟨"actuator", "A" ++ ".target"⟩)) :=
  ⟨by decide, by decide, (c7_target_input_nodes c7wCfg (by decide)).1,
    (c7_target_input_nodes c7wCfg (by decide)).2 "A" (by decide)⟩

def c7xCfg : FixtureConfig :=
  { serves := ["A"], mappings := [("A.target", { depends_on := ["X"] })] }

/-- C7 counterexample: when the user mappings already hold a mapping
keyed A.target, the rewritten table's entry under that key keeps its
dependencies and is not the synthesized no-dependency input node, so
the claim that every served path's .target entry has no dependencies
and no transform fails. -/
theorem c7_counterexample_preexisting_target_kept :
    "A" ∈ c7xCfg.serves ∧
    (createDAGMappings c7xCfg).lookup ("A" ++ ".target") =
      some { depends_on := ["X"] } ∧
    ({ depends_on := ["X"] } : SignalMapping).depends_on ≠ [] :=
  ⟨by decide, by decide, by decide⟩

/-! ### The publish loops: claims C8, C9, C3 -/

/-- The publish loop is exactly: keep the valid outputs that have a
resolved handle, and attempt one publish per kept output. -/
lemma publishOutputs_eq (env : RunnerEnv) (handles : List (String × Nat)) :
    ∀ outputs : List VSSSignal,
      publishOutputs env handles outputs =
        (outputs.filter (fun o => o.valid && (handles.lookup o.path).isSome)).map
          (fun o => (o.path, o.value, env.publishOk o.path o.value)) := by
  intro outputs
  induction outputs with
  | nil => rfl
  | cons o rest ih =>
      by_cases hv : o.valid = false
      · rw [show publishOutputs env handles (o :: rest) =
            publishOutputs env handles rest by simp [publishOutputs, hv]]
        rw [ih, List.filter_cons]
        simp [hv]
      · rw [Bool.not_eq_false] at hv
        cases hl : handles.lookup o.path with
        | none =>
            rw [show publishOutputs env handles (o :: rest) =
                publishOutputs env handles rest by simp [publishOutputs, hv, hl]]
            rw [ih, List.filter_cons]
            simp [hl]
        | some h =>
            rw [show publishOutputs env handles (o :: rest) =
                (o.path, o.value, env.publishOk o.path o.value) ::
                  publishOutputs env handles rest by simp [publishOutputs, hv, hl]]
            rw [ih, List.filter_cons]
            simp [hv, hl]

/-- C8: an output whose validity flag is false is never published: on
both the periodic tick path and the actuation path the publish
attempts are exactly one per valid output with a resolved handle, and
a batch of only invalid outputs produces no publish call at all. -/
theorem c8_invalid_outputs_never_published (env : RunnerEnv) (st : StartState)
    (a : String) (v : VssValue) (h : st.running = true) :
    (runTick env st).2 =
      ((env.dagProcess []).filter
        (fun o => o.valid && (st.handles.lookup o.path).isSome)).map
        (fun o => (o.path, o.value, env.publishOk o.path o.value)) ∧
    handleActuation env st a v =
      ((env.dagProcess [{ path := a ++ ".target", value := v }]).filter
        (fun o => o.valid && (st.handles.lookup o.path).isSome)).map
        (fun o => (o.path, o.value, env.publishOk o.path o.value)) ∧
    (∀ outs : List VSSSignal, (∀ o ∈ outs, o.valid = false) →
      publishOutputs env st.handles outs = []) := by
  refine ⟨?_, ?_, ?_⟩
  · rw [show (runTick env st).2 =
        publishOutputs env st.handles (env.dagProcess []) by simp [runTick, h]]
    exact publishOutputs_eq env st.handles _
  · exact publishOutputs_eq env st.handles _
  · intro outs hall
    rw [publishOutputs_eq]
    have : outs.filter (fun o => o.valid && (st.handles.lookup o.path).isSome) = [] := by
      rw [List.filter_eq_nil_iff]
      intro o ho
      simp [hall o ho]
    rw [this]
    rfl

def c8wSt : StartState :=
  { running := true, handles := [("A", 1)], resolveTrace := ["A"], registered := ["A"] }

def c8wEnv : RunnerEnv :=
  { resolverOk := true
    clientOk := true
    resolve := fun _ => some 1
    dagInit := fun _ => true
    clientStartOk := true
    readyOk := true
    dagProcess := fun _ =>
      [{ path := "A", valid := false, value := 3 }, { path := "A", valid := true, value := 4 }]
    publishOk := fun _ _ => true }

/-- C8 witness: a tick whose DAG batch has one invalid and one valid
output; only the valid one is published. -/
theorem c8_invalid_outputs_never_published_witness :
    c8wSt.running = true ∧
    (runTick c8wEnv c8wSt).2 =
      ((c8wEnv.dagProcess []).filter
        (fun o => o.valid && (c8wSt.handles.lookup o.path).isSome)).map
        (fun o => (o.path, o.value, c8wEnv.publishOk o.path o.value)) ∧
    (runTick c8wEnv c8wSt).2 = [("A", 4, true)] :=
  ⟨rfl, (c8_invalid_outputs_never_published c8wEnv c8wSt "A" 0 rfl).1, by decide⟩

/-- C9: a failed publish does not stop the loop and is not retried:
the list of attempted (path, value) pairs does not depend on the
publish oracle's outcomes, each DAG output leads to at most one
attempt, and a tick leaves the runner state (its running flag
included) unchanged. -/
theorem c9_publish_failure_logged_not_retried (env env2 : RunnerEnv)
    (handles : List (String × Nat)) (outs : List VSSSignal) (st : StartState) :
    (publishOutputs env handles outs).map (fun t => (t.1, t.2.1)) =
      (outs.filter (fun o => o.valid && (handles.lookup o.path).isSome)).map
        (fun o => (o.path, o.value)) ∧
    (publishOutputs env handles outs).map (fun t => (t.1, t.2.1)) =
      (publishOutputs env2 handles outs).map (fun t => (t.1, t.2.1)) ∧
    (publishOutputs env handles outs).length ≤ outs.length ∧
    (runTick env st).1 = st := by
  refine ⟨?_, ?_, ?_, ?_⟩
  · rw [publishOutputs_eq, List.map_map]
    rfl
  · rw [publishOutputs_eq, publishOutputs_eq, List.map_map, List.map_map]
    rfl
  · rw [publishOutputs_eq, List.length_map]
    exact List.length_filter_le _ _
  · unfold runTick
    split <;> rfl

def c3xSt : StartState :=
  { running := true, handles := [("A", 5)], resolveTrace := ["A"], registered := ["A"] }

def c3xEnv : RunnerEnv :=
  { resolverOk := true
    clientOk := true
    resolve := fun _ => some 5
    dagInit := fun _ => true
    clientStartOk := true
    readyOk := true
    dagProcess := fun _ => [{ path := "A", valid := true, value := 7 }]
    publishOk := fun _ _ => true }

/-- C3 counterexample: the actuation callback itself performs a
publish call — HandleActuation runs the DAG and publishes on the
protocol callback path, so the claim that the callback performs no
publishing and only enqueues into an intake queue is false (no such
queue exists in the runner). -/
theorem c3_counterexample_callback_publishes :
    handleActuation c3xEnv c3xSt "A" 7 = [("A", 7, true)] ∧
    handleActuation c3xEnv c3xSt "A" 7 ≠ [] :=
  ⟨rfl, by decide⟩

/-- C3 (amended): there is no intake queue and no worker thread: the
actuation callback synchronously builds the .target update, feeds it
to the DAG, and itself publishes every valid output that has a
handle, in the order the DAG emitted them. -/
theorem c3_amended_callback_synchronous (env : RunnerEnv) (st : StartState)
    (a : String) (v : VssValue) :
    handleActuation env st a v =
      publishOutputs env st.handles
        (env.dagProcess [{ path := a ++ ".target", value := v }]) ∧
    handleActuation env st a v =
      ((env.dagProcess [{ path := a ++ ".target", value := v }]).filter
        (fun o => o.valid && (st.handles.lookup o.path).isSome)).map
        (fun o => (o.path, o.value, env.publishOk o.path o.value)) :=
  ⟨rfl, publishOutputs_eq env st.handles _⟩

/-! ### Claims C5 and C10 -/

lemma resolveSignals_all_ok (env : RunnerEnv) (h : ∀ s, (env.resolve s).isSome) :
    ∀ (l : List String) (acc : List (String × Nat)),
      (resolveSignals env l acc).2.2 = true := by
  intro l
  induction l with
  | nil => intro acc; rfl
  | cons s0 rest ih =>
      intro acc
      obtain ⟨hdl, hres⟩ := Option.isSome_iff_exists.mp (h s0)
      simp only [resolveSignals, hres]
      exact ih (acc ++ [(s0, hdl)])

lemma registerActs_ok (handles : List (String × Nat)) :
    ∀ l : List String, (∀ a ∈ l, (handles.lookup a).isSome) →
      (registerActs handles l).2 = true := by
  intro l
  induction l with
  | nil => intro _; rfl
  | cons a rest ih =>
      intro hall
      have ha : (handles.lookup a).isSome = true := hall a (List.mem_cons_self a rest)
      simp only [registerActs, ha, if_true]
      exact ih (fun b hb => hall b (List.mem_cons_of_mem a hb))

/-- With a healthy environment (resolver, client, every path
resolvable, DAG initialization accepting any table, client start and
readiness succeeding) Start reaches the running state for any loaded
configuration whatsoever. -/
lemma startRun_all_ok (cfg : FixtureConfig) (env : RunnerEnv)
    (h1 : env.resolverOk = true) (h2 : env.clientOk = true)
    (h3 : ∀ s, (env.resolve s).isSome)
    (h4 : ∀ t, env.dagInit t = true)
    (h5 : env.clientStartOk = true) (h6 : env.readyOk = true) :
    (startRun cfg env).running = true := by
  have hok : (resolveSignals env (allSignals cfg) []).2.2 = true :=
    resolveSignals_all_ok env h3 (allSignals cfg) []
  have hserves : ∀ a ∈ cfg.serves,
      (((resolveSignals env (allSignals cfg) []).2.1).lookup a).isSome := by
    intro a ha
    apply resolveSignals_ok_lookup env (allSignals cfg) [] hok
    unfold allSignals
    rw [List.mem_dedup, List.mem_append]
    exact Or.inl ha
  have hreg : (registerActs (resolveSignals env (allSignals cfg) []).2.1
      cfg.serves).2 = true :=
    registerActs_ok _ cfg.serves hserves
  unfold startRun
  simp [h1, h2, hok, hreg, h4, h5, h6]

/-- vss::types::value_type_from_string recognizing nothing (any
unrecognized-datatype scenario factors through such inputs). -/
def vtNone : String → Option VT := fun _ => none

/-- C5 (the failing part, evaluated): with the broker healthy, a
missing configuration file does not make the process exit with code 1:
LoadConfig only logs and returns, main never checks it, Start succeeds
with the empty fixture, and the process reaches the running state and
exits 0 on shutdown — a silent startup with nothing declared. -/
theorem c5_missing_config_still_starts :
    runnerMain vtNone ConfigFile.missing allOkEnv = 0 ∧
    (startRun (loadConfig vtNone ConfigFile.missing) allOkEnv).running = true ∧
    loadConfig vtNone ConfigFile.missing = {} ∧
    runnerMain vtNone ConfigFile.parseError allOkEnv = 0 ∧
    runnerMain vtNone (ConfigFile.ok { fixture := none }) allOkEnv = 0 :=
  ⟨rfl, rfl, rfl, rfl, rfl⟩

/-- C10: a mappings entry without a "signal" key is skipped and the
load continues; an entry whose "datatype" string is not recognized is
kept with datatype UNSPECIFIED; and with a healthy environment the
runner still reaches the running state for any loaded configuration. -/
theorem c10_lenient_mapping_parsing (vt : String → Option VT) (n : MappingNode)
    (rest : List MappingNode) (acc : List (String × SignalMapping))
    (file : ConfigFile) (env : RunnerEnv)
    (h1 : env.resolverOk = true) (h2 : env.clientOk = true)
    (h3 : ∀ s, (env.resolve s).isSome)
    (h4 : ∀ t, env.dagInit t = true)
    (h5 : env.clientStartOk = true) (h6 : env.readyOk = true) :
    (n.signal = none → loadMappings vt (n :: rest) acc = loadMappings vt rest acc) ∧
    (∀ nm ds, n.signal = some nm → n.datatype = some ds → vt ds = none →
      loadMappings vt (n :: rest) acc =
        loadMappings vt rest (assocSet acc nm
          { datatype := VT.unspecified
            depends_on := n.depends_on.getD []
            interval_ms := n.delay_ms
            transform := n.transformCode
            source := none })) ∧
    (startRun (loadConfig vt file) env).running = true := by
  refine ⟨?_, ?_, ?_⟩
  · intro h
    simp [loadMappings, h]
  · intro nm ds hs hd hv
    simp [loadMappings, hs, hd, hv]
  · exact startRun_all_ok (loadConfig vt file) env h1 h2 h3 h4 h5 h6

def c10nA : MappingNode := {}

def c10nB : MappingNode := { signal := some "S", datatype := some "weird" }

/-- C10 witness: a signal-less node is skipped, an unknown datatype
becomes UNSPECIFIED, and the runner starts. -/
theorem c10_lenient_mapping_parsing_witness :
    c10nA.signal = none ∧
    loadMappings vtNone [c10nA] [] = loadMappings vtNone [] [] ∧
    c10nB.signal = some "S" ∧ c10nB.datatype = some "weird" ∧
    vtNone "weird" = none ∧
    loadMappings vtNone [c10nB] [] =
      loadMappings vtNone []
        (assocSet [] "S"
          { datatype := VT.unspecified
            depends_on := c10nB.depends_on.getD []
            interval_ms := c10nB.delay_ms
            transform := c10nB.transformCode
            source := none }) ∧
    (startRun (loadConfig vtNone ConfigFile.missing) allOkEnv).running = true :=
  ⟨rfl,
    (c10_lenient_mapping_parsing vtNone c10nA [] [] ConfigFile.missing allOkEnv
      rfl rfl (fun _ => rfl) (fun _ => rfl) rfl rfl).1 rfl,
    rfl, rfl, rfl,
    (c10_lenient_mapping_parsing vtNone c10nB [] [] ConfigFile.missing allOkEnv
      rfl rfl (fun _ => rfl) (fun _ => rfl) rfl rfl).2.1 "S" "weird" rfl rfl rfl,
    (c10_lenient_mapping_parsing vtNone c10nA [] [] ConfigFile.missing allOkEnv
      rfl rfl (fun _ => rfl) (fun _ => rfl) rfl rfl).2.2⟩
